import Mathlib

/-!
Verification of the `fillout-assignment` service core (src/index.ts): the
remote page-fetch loop, the bounded FIFO result cache, the filter engine and
the response windower, shallowly embedded as executable Lean definitions.

JavaScript numbers are IEEE-754 doubles.  Numbers arriving as submission or
condition values are modelled as integers (`Int`): every number reachable
from JSON whose value lies in the doubles' exact integer range corresponds to
exactly one such model value.  String-to-number coercion is modelled by the
full ECMAScript `Number()` string grammar evaluated to exact rationals (plus
infinities and NaN).  Wherever a statement's fidelity would otherwise hinge
on double rounding — very large loop bounds, or parsed values of extreme
precision or magnitude — the theorem carries an explicit range hypothesis
(`≤ 2 ^ 53`, `exactDouble`) restricting it to the regime where exact
arithmetic and double arithmetic provably coincide.
-/

namespace Fillout

/-- A submitted answer value: `number | string` in the source. -/
inductive Value where
  | num (n : Int)
  | str (s : String)
deriving DecidableEq, Repr

/-- The four comparison operators of `FilterClauseType.condition`. -/
inductive Condition where
  | equals
  | does_not_equal
  | greater_than
  | less_than
deriving DecidableEq, Repr

/-- `{id, value}`: one question answer inside a submission (`HasIdWithValue`). -/
structure Question where
  id : String
  value : Value
deriving DecidableEq, Repr

/-- `Submission = { questions: HasIdWithValue[] }`. -/
structure Submission where
  questions : List Question
deriving DecidableEq, Repr

/-- `FilterClauseType = {id, condition, value}`. -/
structure FilterClause where
  id : String
  condition : Condition
  value : Value
deriving DecidableEq, Repr

/-- The mathematical value of a JS number: NaN, an infinity, or a finite
value, kept as an exact rational. -/
inductive JSNum where
  | nan
  | posInf
  | negInf
  | finite (q : ℚ)
deriving DecidableEq, Repr

/-- The code points ECMAScript trims around a string numeric literal:
WhiteSpace (TAB VT FF SP NBSP ZWNBSP and the Unicode Zs spaces) and
LineTerminator (LF CR LS PS). -/
def jsWhitespaceCodes : List Nat :=
  [0x9, 0xA, 0xB, 0xC, 0xD, 0x20, 0xA0, 0x1680,
   0x2000, 0x2001, 0x2002, 0x2003, 0x2004, 0x2005, 0x2006, 0x2007,
   0x2008, 0x2009, 0x200A, 0x2028, 0x2029, 0x202F, 0x205F, 0x3000, 0xFEFF]

def isJsWhitespace (c : Char) : Bool := jsWhitespaceCodes.contains c.toNat

def jsTrim (l : List Char) : List Char :=
  ((l.dropWhile isJsWhitespace).reverse.dropWhile isJsWhitespace).reverse

/-- The value of a digit character under the given radix, if it is one. -/
def digitVal? (radix : Nat) (c : Char) : Option Nat :=
  let v :=
    if '0' ≤ c ∧ c ≤ '9' then some (c.toNat - 48)
    else if 'a' ≤ c ∧ c ≤ 'f' then some (c.toNat - 87)
    else if 'A' ≤ c ∧ c ≤ 'F' then some (c.toNat - 55)
    else none
  match v with
  | some d => if d < radix then some d else none
  | none => none

/-- Consume a maximal run of digits: accumulated value, number of digits
consumed, rest of the input. -/
def digitsToNatCount (radix : Nat) : List Char → Nat → Nat → Nat × Nat × List Char
  | [], acc, cnt => (acc, cnt, [])
  | c :: rest, acc, cnt =>
    match digitVal? radix c with
    | some d => digitsToNatCount radix rest (acc * radix + d) (cnt + 1)
    | none => (acc, cnt, c :: rest)

/-- An optional `ExponentPart` that must consume the whole remaining input:
`e`/`E`, an optional sign, one or more decimal digits. -/
def parseExponent : List Char → Option Int
  | [] => some 0
  | c :: rest =>
    if c = 'e' ∨ c = 'E' then
      match rest with
      | '+' :: r2 =>
        match digitsToNatCount 10 r2 0 0 with
        | (v, cnt, r3) => if cnt = 0 ∨ r3 ≠ [] then none else some (v : Int)
      | '-' :: r2 =>
        match digitsToNatCount 10 r2 0 0 with
        | (v, cnt, r3) => if cnt = 0 ∨ r3 ≠ [] then none else some (-(v : Int))
      | r2 =>
        match digitsToNatCount 10 r2 0 0 with
        | (v, cnt, r3) => if cnt = 0 ∨ r3 ≠ [] then none else some (v : Int)
    else none

/-- Exact value of a decimal literal with integer-and-fraction mantissa `m`,
`d` fraction digits and decimal exponent `e`: `m * 10 ^ (e - d)`. -/
def decValue (m d : Nat) (e : Int) : ℚ :=
  if 0 ≤ e - (d : Int) then ((m * 10 ^ (e - (d : Int)).toNat : Nat) : ℚ)
  else mkRat (m : Int) (10 ^ ((d : Int) - e).toNat)

/-- `StrUnsignedDecimalLiteral` without the `Infinity` production:
`DecimalDigits [. [DecimalDigits]] [ExponentPart]` or
`. DecimalDigits [ExponentPart]`, consuming the whole input. -/
def parseDecimal (l : List Char) : Option ℚ :=
  match l with
  | '.' :: rest =>
    match digitsToNatCount 10 rest 0 0 with
    | (f, fcnt, rest2) =>
      if fcnt = 0 then none
      else (parseExponent rest2).map (fun e => decValue f fcnt e)
  | _ =>
    match digitsToNatCount 10 l 0 0 with
    | (i, icnt, rest1) =>
      if icnt = 0 then none
      else
        match rest1 with
        | '.' :: rest2 =>
          match digitsToNatCount 10 rest2 0 0 with
          | (f, fcnt, rest3) =>
            (parseExponent rest3).map (fun e => decValue (i * 10 ^ fcnt + f) fcnt e)
        | r => (parseExponent r).map (fun e => decValue i 0 e)

/-- A `NonDecimalIntegerLiteral` body: one or more digits of the radix,
consuming the whole input. -/
def parseRadix (radix : Nat) (l : List Char) : Option ℚ :=
  match digitsToNatCount radix l 0 0 with
  | (v, cnt, rest) =>
    if cnt = 0 ∨ rest ≠ [] then none else some ((v : Nat) : ℚ)

def parseSignless (l : List Char) : JSNum :=
  if l = ['I', 'n', 'f', 'i', 'n', 'i', 't', 'y'] then .posInf
  else
    match parseDecimal l with
    | some q => .finite q
    | none => .nan

def parseSigned (l : List Char) : JSNum :=
  match l with
  | '+' :: rest => parseSignless rest
  | '-' :: rest =>
    match parseSignless rest with
    | .posInf => .negInf
    | .finite q => .finite (-q)
    | _ => .nan
  | _ => parseSignless l

/-- JS `Number(s)` on a string, per the `StringNumericLiteral` grammar:
trimmed whitespace; empty means 0; a `0x`/`0o`/`0b` literal (no sign
allowed); otherwise an optionally signed `Infinity` or decimal literal
(optional fraction and exponent); anything else is NaN.  Finite values are
kept exact: the rounding of a parsed value to the nearest double is not
modelled, so statements about finite parses restrict themselves to exactly
representable values (`exactDouble`), where rounding is the identity. -/
def jsStrToNumber (l : List Char) : JSNum :=
  match jsTrim l with
  | [] => .finite 0
  | '0' :: c :: rest =>
    if c = 'x' ∨ c = 'X' then (parseRadix 16 rest).elim JSNum.nan JSNum.finite
    else if c = 'o' ∨ c = 'O' then (parseRadix 8 rest).elim JSNum.nan JSNum.finite
    else if c = 'b' ∨ c = 'B' then (parseRadix 2 rest).elim JSNum.nan JSNum.finite
    else parseSigned (jsTrim l)
  | _ => parseSigned (jsTrim l)

def jsToNumber (s : String) : JSNum := jsStrToNumber s.data

/-- The ECMAScript abstract relational comparison `x < y` on two number
values: false if either is NaN, infinities ordered below/above everything
finite, finite values by their exact order. -/
def jsNumLt : JSNum → JSNum → Bool
  | .nan, _ => false
  | _, .nan => false
  | .posInf, _ => false
  | .negInf, .negInf => false
  | .negInf, _ => true
  | .finite _, .posInf => true
  | .finite _, .negInf => false
  | .finite p, .finite q => decide (p < q)

/-- `q` is exactly representable as an IEEE-754 double: in lowest terms its
denominator is a power of two of at most `2 ^ 52` and its numerator fits the
53-bit mantissa range.  On such values (far from the subnormal range) double
rounding is the identity, so exact comparison and double comparison agree. -/
def exactDouble (q : ℚ) : Prop :=
  q.den ≤ 2 ^ 52 ∧ q.den &&& (q.den - 1) = 0 ∧ q.num.natAbs ≤ 2 ^ 53

instance (q : ℚ) : Decidable (exactDouble q) := by
  unfold exactDouble
  infer_instance

/-- The ECMAScript abstract relational comparison `a < b` on
`number | string` operands: two strings compare lexicographically by code
unit; otherwise the string operand is coerced with `Number(·)` and the
numeric comparison above applies. -/
def jsLtVal : Value → Value → Bool
  | .num a, .num b => decide (a < b)
  | .str a, .str b => decide (a < b)
  | .str a, .num b => jsNumLt (jsToNumber a) (.finite ((b : Int) : ℚ))
  | .num a, .str b => jsNumLt (.finite ((a : Int) : ℚ)) (jsToNumber b)

/-- JS `a > b` evaluates the relational comparison `b < a`. -/
def jsGtVal (a b : Value) : Bool := jsLtVal b a

/-- The `switch (condition.condition)` in the handler's filter callback,
applied to one question's value.  `===`/`!==` are strict: equal type and
equal value. -/
def checkCondition (c : FilterClause) (qv : Value) : Bool :=
  match c.condition with
  | .equals => decide (qv = c.value)
  | .does_not_equal => decide (qv ≠ c.value)
  | .greater_than => jsGtVal qv c.value
  | .less_than => jsLtVal qv c.value

/-! JS `Map` semantics over string keys, as an association list in insertion
order: `get` finds the (unique) entry, `set` overwrites in place or appends,
`delete` removes the entry with the key (the first, which is the only one for
lists built by `mset`). -/

def mget {α : Type} (k : String) : List (String × α) → Option α
  | [] => none
  | (k', v) :: rest => if k' = k then some v else mget k rest

def mset {α : Type} (k : String) (v : α) : List (String × α) → List (String × α)
  | [] => [(k, v)]
  | (k', v') :: rest => if k' = k then (k, v) :: rest else (k', v') :: mset k v rest

def mdelete {α : Type} (k : String) : List (String × α) → List (String × α)
  | [] => []
  | (k', v') :: rest => if k' = k then rest else (k', v') :: mdelete k rest

/-- `filters.forEach(filter => conditions.set(filter.id, filter))`: the
conditions map, keyed by question id; a later clause with the same id
overwrites an earlier one. -/
def buildConditions (filters : List FilterClause) : List (String × FilterClause) :=
  filters.foldl (fun m f => mset f.id f m) []

/-- The `checks` array: one boolean per question whose id has a condition in
the map (`response.questions.forEach` with `conditions.has`/`get`). -/
def questionChecks (conds : List (String × FilterClause)) (qs : List Question) : List Bool :=
  qs.filterMap (fun q => (mget q.id conds).map (fun c => checkCondition c q.value))

/-- The filter callback: `checks.findIndex(check => !check) == -1`, i.e. no
check evaluated to false. -/
def passesFilters (filters : List FilterClause) (r : Submission) : Bool :=
  (questionChecks (buildConditions filters) r.questions).all (fun c => c)

/-- The filter block runs only when a `filters` query string was supplied;
otherwise the dataset passes through untouched. -/
def applyFilters (filters : Option (List FilterClause)) (rs : List Submission) : List Submission :=
  match filters with
  | none => rs
  | some fs => rs.filter (fun r => passesFilters fs r)

/-- JS `Array.prototype.slice(start, stop)` for non-negative in-range-or-above
indices: the elements with index in `[start, stop)`. -/
def jsSlice {α : Type} (xs : List α) (start stop : Nat) : List α :=
  (xs.take stop).drop start

/-- `Math.ceil(len / limit)` on non-negative integers.  `none` models the
non-finite JS results of dividing by `limit = 0` (`Infinity` for a non-empty
dataset, `NaN` for an empty one). -/
def jsCeilDiv (len limit : Nat) : Option Nat :=
  if limit = 0 then none else some ((len + limit - 1) / limit)

/-- The final `res.send({responses, totalResponses, pageCount})` payload. -/
structure Payload where
  responses : List Submission
  totalResponses : Nat
  pageCount : Option Nat
deriving DecidableEq, Repr

/-- The windowing step: `responses.slice(resOffset, resLimit + resOffset)`,
`totalResponses = responses.length` (the filtered list),
`pageCount = Math.ceil(responses.length / resLimit)`. -/
def windowPayload (rs : List Submission) (resOffset resLimit : Nat) : Payload :=
  { responses := jsSlice rs resOffset (resLimit + resOffset)
    totalResponses := rs.length
    pageCount := jsCeilDiv rs.length resLimit }

/-- One page returned by `getPage`: `resp.data.responses` and
`resp.data.pageCount`. -/
structure PageResp where
  responses : List Submission
  pageCount : Nat
deriving DecidableEq, Repr

/-- Outcome of the fetch loop.  `fuelOut` means the given fuel bound was
exhausted before the loop's own exit condition fired (the JS loop would still
be running). -/
inductive FetchOut where
  | ok (rs : List Submission)
  | failed
  | fuelOut
deriving DecidableEq, Repr

/-- The guard `offset < totalPages`, where `totalPages` starts as
`Number.POSITIVE_INFINITY` (`none`) and is overwritten by each page's
`pageCount`. -/
def stillFetching (offset : Nat) : Option Nat → Bool
  | none => true
  | some t => decide (offset < t)

/-- The `while (offset < totalPages)` loop.  A remote behavior is a function
from the request's `offset` parameter to `some` page or `none` (the awaited
call threw / returned non-success, landing in the `catch`).  Each successful
page appends its records, advances `offset` by 150 and overwrites
`totalPages` with the page's `pageCount`.  The offset is modelled as an
exact natural number; the source's `offset += 150` on a double is exact only
while offsets stay in the doubles' exact integer range (all offsets being
even multiples of 150, up to `2 ^ 53 + 150`), and stalls entirely once the
ulp exceeds 300 (offsets beyond `2 ^ 61`) — so termination statements below
restrict the reported page counts to the exact range. -/
def fetchGo (api : Nat → Option PageResp) :
    Nat → Nat → Option Nat → List Submission → FetchOut
  | 0, _, _, _ => .fuelOut
  | fuel + 1, offset, totalPages, acc =>
    if stillFetching offset totalPages then
      match api offset with
      | none => .failed
      | some resp => fetchGo api fuel (offset + 150) (some resp.pageCount) (acc ++ resp.responses)
    else .ok acc

/-- The fetch loop from its initial state: `offset = 0`,
`totalPages = Infinity`, `responses = []`. -/
def fetchAll (api : Nat → Option PageResp) (fuel : Nat) : FetchOut :=
  fetchGo api fuel 0 none []

/-- The loop terminates (with some fuel bound, it finishes on its own —
successfully or in the `catch` — rather than running out of fuel). -/
def FetchTerminates (api : Nat → Option PageResp) : Prop :=
  ∃ fuel, fetchAll api fuel ≠ .fuelOut

/-! The result cache: `const cache = new Map()`, `const queue: string[] = []`,
`const maxLen = 10`, and `cacheData`. -/

def maxLen : Nat := 10

structure CacheState where
  cache : List (String × List Submission)
  queue : List String
deriving DecidableEq, Repr

/-- `cacheData(key, responses)`: when the queue is at `maxLen`, shift the
oldest key off the queue and delete it from the map; then set the new entry
and push its key. -/
def cacheData (key : String) (responses : List Submission) (s : CacheState) : CacheState :=
  let s1 :=
    if s.queue.length = maxLen then
      { cache := mdelete (s.queue.headD "") s.cache, queue := s.queue.tail }
    else s
  { cache := mset key responses s1.cache, queue := s1.queue ++ [key] }

/-- A JSON string literal (the serialized values here are validated query
strings that need no escaping). -/
def jsonStr (s : String) : String := "\"" ++ s ++ "\""

/-- One field of `JSON.stringify`: a key whose value is `undefined` is
omitted from the output. -/
def jsonField (name : String) : Option String → List String
  | none => []
  | some v => [jsonStr name ++ ":" ++ jsonStr v]

/-- `createHash({formId, afterDate, beforeDate, status, includeEditLink,
sort})` = `JSON.stringify` of that object literal, whose key order is fixed
by the literal itself. -/
def createHash (formId : String)
    (afterDate beforeDate status includeEditLink sortDir : Option String) : String :=
  "\x7b" ++ String.intercalate ","
    ([jsonStr "formId" ++ ":" ++ jsonStr formId]
      ++ jsonField "afterDate" afterDate
      ++ jsonField "beforeDate" beforeDate
      ++ jsonField "status" status
      ++ jsonField "includeEditLink" includeEditLink
      ++ jsonField "sort" sortDir) ++ "\x7d"

/-- A validated request as the handler sees it: the path parameter, the five
identity query parameters (raw query strings, absent = `undefined`), and the
post-fetch parameters `filters` / `offset` / `limit`.  Per the validation
layer `offset` and `limit` are non-negative integers. -/
structure ReqQuery where
  formId : String
  afterDate : Option String
  beforeDate : Option String
  status : Option String
  includeEditLink : Option String
  sortDir : Option String
  filters : Option (List FilterClause)
  offset : Option Nat
  limit : Option Nat

/-- The handler's cache key:
`createHash({ formId: req.params.formId, ...params })`. -/
def requestKey (q : ReqQuery) : String :=
  createHash q.formId q.afterDate q.beforeDate q.status q.includeEditLink q.sortDir

/-- What the handler sends back: the payload object or `{error: ...}`. -/
inductive HandlerOut where
  | payload (p : Payload)
  | error (msg : String)
deriving DecidableEq, Repr

/-- The post-fetch part of the handler: defaults `resOffset = 0` and
`resLimit = 150` overridden by present query parameters, then filtering, then
windowing. -/
def pageFor (q : ReqQuery) (rs : List Submission) : HandlerOut :=
  let resOffset := q.offset.getD 0
  let resLimit := q.limit.getD 150
  .payload (windowPayload (applyFilters q.filters rs) resOffset resLimit)

/-- The `GET /:formId/filteredResponses` handler body on a validated request:
cache hit serves the stored dataset unchanged; a miss runs the fetch loop,
whose failure returns `{error: "Request failed!"}` without touching the
cache, and whose success caches the full dataset under the key before
filtering and windowing.  The returned pair is (response, cache state after
the request); `none` only for the fuel-exhausted artificial cutoff. -/
def handler (api : Nat → Option PageResp) (fuel : Nat) (q : ReqQuery) (s : CacheState) :
    Option (HandlerOut × CacheState) :=
  let key := requestKey q
  match mget key s.cache with
  | some rs => some (pageFor q rs, s)
  | none =>
    match fetchAll api fuel with
    | .fuelOut => none
    | .failed => some (.error "Request failed!", s)
    | .ok rs => some (pageFor q rs, cacheData key rs s)

/-! Basic lemmas about the JS `Map` model. -/

theorem mget_eq_none_iff {α : Type} (k : String) (m : List (String × α)) :
    mget k m = none ↔ k ∉ m.map Prod.fst := by
  induction m with
  | nil => simp [mget]
  | cons p rest ih =>
    obtain ⟨k', v⟩ := p
    by_cases h : k' = k
    · subst h
      simp [mget]
    · rw [List.map_cons]
      simp only [mget, if_neg h, List.mem_cons, not_or]
      rw [ih]
      exact ⟨fun hh => ⟨fun he => h he.symm, hh⟩, fun hh => hh.2⟩

theorem mget_mset_self {α : Type} (k : String) (v : α) (m : List (String × α)) :
    mget k (mset k v m) = some v := by
  induction m with
  | nil => simp [mget, mset]
  | cons p rest ih =>
    obtain ⟨k', v'⟩ := p
    by_cases h : k' = k <;> simp [mget, mset, h, ih]

theorem mget_mset_ne {α : Type} {k' k : String} (h : k' ≠ k) (v : α)
    (m : List (String × α)) : mget k' (mset k v m) = mget k' m := by
  induction m with
  | nil => simp [mget, mset, Ne.symm h]
  | cons p rest ih =>
    obtain ⟨k'', v''⟩ := p
    by_cases hk : k'' = k
    · subst hk
      simp [mget, mset, Ne.symm h]
    · by_cases hk' : k'' = k'
      · simp [mget, mset, hk, hk', h]
      · simp [mget, mset, hk, hk', ih]

theorem mset_eq_append {α : Type} {k : String} {m : List (String × α)}
    (h : k ∉ m.map Prod.fst) (v : α) : mset k v m = m ++ [(k, v)] := by
  induction m with
  | nil => simp [mset]
  | cons p rest ih =>
    obtain ⟨k', v'⟩ := p
    simp only [List.map_cons, List.mem_cons, not_or] at h
    simp [mset, h.1, Ne.symm h.1, ih h.2]

theorem keys_mset {α : Type} (k : String) (v : α) (m : List (String × α)) :
    (mset k v m).map Prod.fst =
      if k ∈ m.map Prod.fst then m.map Prod.fst else m.map Prod.fst ++ [k] := by
  induction m with
  | nil => simp [mset]
  | cons p rest ih =>
    obtain ⟨k', v'⟩ := p
    by_cases h : k' = k
    · subst h
      simp [mset]
    · by_cases hmem : k ∈ rest.map Prod.fst <;>
        simp [mset, h, Ne.symm h, ih, hmem]

theorem keys_mdelete {α : Type} (k : String) (m : List (String × α)) :
    (mdelete k m).map Prod.fst = (m.map Prod.fst).erase k := by
  induction m with
  | nil => simp [mdelete]
  | cons p rest ih =>
    obtain ⟨k', v'⟩ := p
    by_cases h : k' = k <;> simp [mdelete, h, List.erase_cons, ih]

theorem mget_mdelete_ne {α : Type} {k' k : String} (h : k' ≠ k)
    (m : List (String × α)) : mget k' (mdelete k m) = mget k' m := by
  induction m with
  | nil => simp [mdelete]
  | cons p rest ih =>
    obtain ⟨k'', v''⟩ := p
    by_cases hk : k'' = k
    · subst hk
      simp [mget, mdelete, Ne.symm h]
    · simp [mget, mdelete, hk, ih]

theorem mget_mdelete_self {α : Type} {k : String} {m : List (String × α)}
    (h : (m.map Prod.fst).Nodup) : mget k (mdelete k m) = none := by
  rw [mget_eq_none_iff, keys_mdelete]
  exact h.not_mem_erase

theorem mdelete_length {α : Type} {k : String} {m : List (String × α)}
    (h : k ∈ m.map Prod.fst) : (mdelete k m).length + 1 = m.length := by
  induction m with
  | nil => simp at h
  | cons p rest ih =>
    obtain ⟨k', v'⟩ := p
    by_cases hk : k' = k
    · simp [mdelete, hk]
    · simp only [List.map_cons, List.mem_cons] at h
      rcases h with h | h
      · exact absurd h.symm hk
      · have := ih h
        simp only [mdelete, if_neg hk, List.length_cons]
        omega

/-- The conditions `Map` built by the handler resolves a question id to the
*last* filter clause with that id (later `set`s overwrite earlier ones). -/
def lastCondition (filters : List FilterClause) (id : String) : Option FilterClause :=
  filters.reverse.find? (fun f => f.id == id)

theorem mget_buildConditions_aux (filters : List FilterClause)
    (m0 : List (String × FilterClause)) (id : String) :
    mget id (filters.foldl (fun m f => mset f.id f m) m0) =
      (filters.reverse.find? (fun f => f.id == id)).or (mget id m0) := by
  induction filters generalizing m0 with
  | nil => simp
  | cons f rest ih =>
    simp only [List.foldl_cons, List.reverse_cons, List.find?_append, ih]
    by_cases h : f.id = id
    · subst h
      have hf : List.find? (fun g => g.id == f.id) [f] = some f := by
        simp [List.find?]
      rw [hf, mget_mset_self]
      cases List.find? (fun g => g.id == f.id) rest.reverse <;> rfl
    · have hf : List.find? (fun g => g.id == id) [f] = none := by
        have hb : (f.id == id) = false := beq_eq_false_iff_ne.mpr h
        simp [List.find?, hb]
      rw [hf, mget_mset_ne (Ne.symm h)]
      cases List.find? (fun g => g.id == id) rest.reverse <;> rfl

theorem mget_buildConditions (filters : List FilterClause) (id : String) :
    mget id (buildConditions filters) = lastCondition filters id := by
  rw [buildConditions, lastCondition, mget_buildConditions_aux]
  cases filters.reverse.find? (fun f => f.id == id) <;> rfl

/-! Concrete data used to exhibit behaviors of the embedded code. -/

def sub0 : Submission := ⟨[⟨"a", .num 1⟩]⟩

def sub1 : Submission := ⟨[⟨"a", .num 2⟩]⟩

/-- A remote behavior holding two pages (`pageCount = 2`): records at request
offsets 0 and 150. -/
def apiTwoPages : Nat → Option PageResp := fun o =>
  if o = 0 then some ⟨[sub0], 2⟩ else if o = 150 then some ⟨[sub1], 2⟩ else none

/-- A remote behavior whose first page reports a 200-page dataset and whose
second page request (offset 150) fails. -/
def apiFailPage2 : Nat → Option PageResp := fun o =>
  if o = 0 then some ⟨[sub0], 200⟩ else none

/-- A request with no optional query parameters. -/
def reqPlain : ReqQuery := ⟨"f1", none, none, none, none, none, none, none, none⟩

/-- Claim C1: the spec's intent is a full-dataset fetch (every page, in
order, none skipped), but the loop guard compares the record offset
(0, 150, 300, …) against the page *count*: on a two-page dataset the loop
stops after the first page because 150 ≥ 2, so the accumulated result is
page one alone, not the concatenation of both pages. -/
theorem C1_fetch_skips_pages :
    fetchAll apiTwoPages 10 = .ok [sub0]
  ∧ fetchAll apiTwoPages 10 ≠ .ok ([sub0] ++ [sub1]) := by decide

/-- Claim C3: on a cache miss, if any requested page fetch fails, the handler
answers exactly `{error: "Request failed!"}` and leaves the cache state (map
and insertion queue) untouched; the partially accumulated records are
discarded, not cached and not returned. -/
theorem C3_fetch_failure (api : Nat → Option PageResp) (fuel : Nat)
    (q : ReqQuery) (s : CacheState)
    (hmiss : mget (requestKey q) s.cache = none)
    (hfail : fetchAll api fuel = .failed) :
    handler api fuel q s = some (.error "Request failed!", s) := by
  simp only [handler, hmiss, hfail]

theorem C3_witness :
    handler apiFailPage2 10 reqPlain ⟨[], []⟩ =
      some (.error "Request failed!", ⟨[], []⟩) :=
  C3_fetch_failure apiFailPage2 10 reqPlain ⟨[], []⟩ (by decide) (by decide)

/-- Claim C7: the cache key is a deterministic function of exactly the query
identity — formId, afterDate, beforeDate, status, includeEditLink, sort.
Requests agreeing on these (whatever their filters, offset and limit, which
the key never reads) serialize to the identical key. -/
theorem C7_cache_key (q1 q2 : ReqQuery)
    (h1 : q1.formId = q2.formId) (h2 : q1.afterDate = q2.afterDate)
    (h3 : q1.beforeDate = q2.beforeDate) (h4 : q1.status = q2.status)
    (h5 : q1.includeEditLink = q2.includeEditLink)
    (h6 : q1.sortDir = q2.sortDir) :
    requestKey q1 = requestKey q2 := by
  unfold requestKey
  rw [h1, h2, h3, h4, h5, h6]

def reqIdA : ReqQuery :=
  ⟨"f1", some "2024-01-01", none, some "finished", none, some "asc",
    none, none, none⟩

/-- Same query identity as `reqIdA`, different filters, offset and limit. -/
def reqIdB : ReqQuery :=
  ⟨"f1", some "2024-01-01", none, some "finished", none, some "asc",
    some [⟨"q1", .equals, .num 1⟩], some 5, some 10⟩

theorem C7_witness : requestKey reqIdA = requestKey reqIdB :=
  C7_cache_key reqIdA reqIdB rfl rfl rfl rfl rfl rfl

/-- Claim C8: filtering returns a subsequence of the dataset (a subset
preserving relative order), and an absent or empty filter set is the
identity. -/
theorem C8_filter_sublist (filters : List FilterClause) (rs : List Submission) :
    (applyFilters (some filters) rs).Sublist rs
  ∧ applyFilters none rs = rs
  ∧ applyFilters (some []) rs = rs := by
  have hp : ∀ r : Submission, passesFilters [] r = true := by
    intro r
    unfold passesFilters questionChecks buildConditions
    simp [mget]
  refine ⟨?_, rfl, ?_⟩
  · exact List.filter_sublist rs
  · simp [applyFilters, hp]

def dupFilters : List FilterClause :=
  [⟨"q", .equals, .num 1⟩, ⟨"q", .equals, .num 2⟩]

def dupRecord : Submission := ⟨[⟨"q", .num 2⟩]⟩

/-- Transcription of claim C2's words: a record is kept iff every filter
clause in the set whose id matches some question answer of the record holds
for the matching answers. -/
def claimC2Keep (filters : List FilterClause) (r : Submission) : Bool :=
  filters.all (fun f =>
    !(r.questions.any (fun q => q.id == f.id)) ||
      r.questions.all (fun q => q.id != f.id || checkCondition f q.value))

/-- Claim C2, as stated, is false: with two clauses sharing an id the code's
conditions `Map` keeps only the later one, so a record failing the earlier
clause (here `equals 1` against answer `2`) is still kept, though the
claim's AND over all clauses in the set would exclude it. -/
theorem C2_counterexample :
    passesFilters dupFilters dupRecord = true ∧
      claimC2Keep dupFilters dupRecord = false := by decide

/-- Claim C2 (amended): a record is kept iff every question answer whose id
resolves to a condition — the *last* clause in the filter set with that id,
later clauses overwriting earlier ones — satisfies that condition; a clause
whose id matches no answer of the record never fails it. -/
theorem C2_filter_semantics (filters : List FilterClause) (r : Submission) :
    passesFilters filters r = true ↔
      ∀ q ∈ r.questions, ∀ f, lastCondition filters q.id = some f →
        checkCondition f q.value = true := by
  unfold passesFilters questionChecks
  simp only [List.all_eq_true, List.mem_filterMap, Option.map_eq_some',
    mget_buildConditions, forall_exists_index, and_imp]
  constructor
  · intro h q hq f hf
    exact h (checkCondition f q.value) q hq f hf rfl
  · rintro h b q hq f hf rfl
    exact h q hq f hf

/-- Claim C9, as stated, is false: a `greater_than` comparison between a
string answer and a numeric condition value is not deterministically false —
JS coerces the string operand, so `"10" > 5` is true. -/
theorem C9_counterexample :
    checkCondition ⟨"q1", .greater_than, .num 5⟩ (.str "10") = true ∧
      ¬ (∀ (s : String) (b : Int),
          jsGtVal (.str s) (.num b) = false ∧ jsLtVal (.str s) (.num b) = false) := by
  refine ⟨by decide, fun h => absurd (h "10" 5).1 (by decide)⟩

/-- Claim C9 (amended): the comparisons are total and deterministic; two
numbers compare numerically and two strings lexicographically; a mismatched
pair coerces the string operand with `Number()` — a string the numeric
grammar rejects converts to NaN and makes the comparison false, a string
parsing to an infinity compares as that infinity, and a string parsing to a
finite value compares numerically (asserted over the exactly
double-representable range, where the model's exact comparison provably
coincides with the program's double comparison). -/
theorem C9_comparison_semantics (b : Int) (q : ℚ) (s : String) :
    (∀ a c : Int, jsGtVal (.num a) (.num c) = decide (c < a)
      ∧ jsLtVal (.num a) (.num c) = decide (a < c))
  ∧ (∀ t u : String, jsGtVal (.str t) (.str u) = decide (u < t)
      ∧ jsLtVal (.str t) (.str u) = decide (t < u))
  ∧ (jsToNumber s = .nan →
      (jsGtVal (.str s) (.num b) = false
        ∧ jsLtVal (.str s) (.num b) = false
        ∧ jsGtVal (.num b) (.str s) = false
        ∧ jsLtVal (.num b) (.str s) = false))
  ∧ (jsToNumber s = .finite q → exactDouble q → b.natAbs ≤ 2 ^ 53 →
      (jsGtVal (.str s) (.num b) = decide (((b : Int) : ℚ) < q)
        ∧ jsLtVal (.str s) (.num b) = decide (q < ((b : Int) : ℚ))
        ∧ jsGtVal (.num b) (.str s) = decide (q < ((b : Int) : ℚ))
        ∧ jsLtVal (.num b) (.str s) = decide (((b : Int) : ℚ) < q)))
  ∧ (jsToNumber s = .posInf →
      (jsGtVal (.str s) (.num b) = true
        ∧ jsLtVal (.str s) (.num b) = false
        ∧ jsGtVal (.num b) (.str s) = false
        ∧ jsLtVal (.num b) (.str s) = true))
  ∧ (jsToNumber s = .negInf →
      (jsGtVal (.str s) (.num b) = false
        ∧ jsLtVal (.str s) (.num b) = true
        ∧ jsGtVal (.num b) (.str s) = true
        ∧ jsLtVal (.num b) (.str s) = false)) := by
  refine ⟨fun a c => ⟨rfl, rfl⟩, fun t u => ⟨rfl, rfl⟩,
    fun h => ?_, fun h _ _ => ?_, fun h => ?_, fun h => ?_⟩ <;>
    simp [jsGtVal, jsLtVal, h, jsNumLt]

theorem C9_witness :
    jsGtVal (.str "1.5") (.num 1) = decide (((1 : Int) : ℚ) < mkRat 3 2)
  ∧ jsGtVal (.str " 0x1A ") (.num 5) = decide (((5 : Int) : ℚ) < mkRat 26 1)
  ∧ jsLtVal (.str "12abc") (.num 5) = false
  ∧ jsGtVal (.str "Infinity") (.num 99) = true := by
  refine ⟨((C9_comparison_semantics 1 (mkRat 3 2) "1.5").2.2.2.1
      (by decide) (by decide) (by decide)).1,
    ((C9_comparison_semantics 5 (mkRat 26 1) " 0x1A ").2.2.2.1
      (by decide) (by decide) (by decide)).1,
    ((C9_comparison_semantics 5 0 "12abc").2.2.1 (by decide)).2.1,
    ((C9_comparison_semantics 99 0 "Infinity").2.2.2.2.1 (by decide)).1⟩

def demoSub : Submission := ⟨[⟨"q1", .num 1⟩]⟩

/-- Page count as claim C5's words read, under the convention that makes the
ceiling of a division by zero a natural number (`Nat` division: `n / 0 = 0`). -/
def claimC5PageCount (total limit : Nat) : Nat := (total + limit - 1) / limit

/-- Claim C5, as stated, fails at `limit = 0` (a value the validator's
`{min: 0, max: 150}` admits): on a one-record dataset the code's page count
is the non-finite JS value `Math.ceil(1 / 0) = Infinity` (modelled `none`),
not the ceiling of `totalResponses / limit`. -/
theorem C5_counterexample :
    (windowPayload [demoSub] 0 0).pageCount = none ∧
      (windowPayload [demoSub] 0 0).pageCount ≠ some (claimC5PageCount 1 0) := by
  decide

/-- Claim C5 (amended to positive limits): with offset `o` and limit `l ≥ 1`
(defaulting to 0 and 150 when absent), the payload's `responses` is the slice
of the filtered dataset from index `o` with stop-index `l + o` — the `l`
records (at most) starting at `o` — `totalResponses` is the filtered
dataset's length, and `pageCount` is the ceiling of `totalResponses / l`
(characterized by the two inequalities below); an offset at or beyond the
dataset's bounds yields an empty `responses`, never an error.  (At `l = 0`
the slice is empty and the page count is the non-finite JS division
result.) -/
theorem C5_windowing (rs : List Submission) (o l : Nat) (q : ReqQuery)
    (hl : 0 < l) :
    (windowPayload rs o l).responses = (rs.drop o).take l
  ∧ (windowPayload rs o l).responses.length ≤ l
  ∧ (windowPayload rs o l).totalResponses = rs.length
  ∧ (windowPayload rs o l).pageCount = some (claimC5PageCount rs.length l)
  ∧ rs.length ≤ l * claimC5PageCount rs.length l
  ∧ l * claimC5PageCount rs.length l < rs.length + l
  ∧ (rs.length ≤ o → (windowPayload rs o l).responses = [])
  ∧ (q.offset = none → q.limit = none →
      pageFor q rs = .payload (windowPayload (applyFilters q.filters rs) 0 150)) := by
  have hresp : (windowPayload rs o l).responses = (rs.drop o).take l := by
    show (rs.take (l + o)).drop o = (rs.drop o).take l
    rw [List.drop_take]
    congr 1
    omega
  have hceil : rs.length ≤ l * claimC5PageCount rs.length l
      ∧ l * claimC5PageCount rs.length l < rs.length + l := by
    unfold claimC5PageCount
    have hmod := Nat.div_add_mod (rs.length + l - 1) l
    have hlt := Nat.mod_lt (rs.length + l - 1) hl
    generalize hm : l * ((rs.length + l - 1) / l) = m at hmod ⊢
    omega
  refine ⟨hresp, ?_, rfl, ?_, hceil.1, hceil.2, ?_, ?_⟩
  · rw [hresp]
    exact List.length_take_le l _
  · show jsCeilDiv rs.length l = _
    rw [jsCeilDiv, if_neg hl.ne']
    rfl
  · intro hb
    rw [hresp, List.drop_eq_nil_of_le hb, List.take_nil]
  · intro h1 h2
    simp [pageFor, h1, h2]

theorem C5_witness :
    ((windowPayload [demoSub, demoSub, demoSub] 1 2).responses =
        ([demoSub, demoSub, demoSub].drop 1).take 2
      ∧ (windowPayload [demoSub, demoSub, demoSub] 1 2).responses.length ≤ 2
      ∧ (windowPayload [demoSub, demoSub, demoSub] 1 2).totalResponses = 3
      ∧ (windowPayload [demoSub, demoSub, demoSub] 1 2).pageCount =
          some (claimC5PageCount 3 2)
      ∧ 3 ≤ 2 * claimC5PageCount 3 2
      ∧ 2 * claimC5PageCount 3 2 < 3 + 2
      ∧ (3 ≤ 1 → (windowPayload [demoSub, demoSub, demoSub] 1 2).responses = [])
      ∧ (reqPlain.offset = none → reqPlain.limit = none →
          pageFor reqPlain [demoSub, demoSub, demoSub] =
            .payload (windowPayload
              (applyFilters reqPlain.filters [demoSub, demoSub, demoSub]) 0 150))) :=
  C5_windowing [demoSub, demoSub, demoSub] 1 2 reqPlain (by decide)

/-- A remote behavior each of whose responses reports a finite page count
that nevertheless always stays ahead of the loop's advancing offset. -/
def apiGrowing : Nat → Option PageResp := fun o => some ⟨[], o + 151⟩

theorem apiGrowing_go (fuel : Nat) :
    ∀ offset acc t, offset < t →
      fetchGo apiGrowing fuel offset (some t) acc = .fuelOut := by
  induction fuel with
  | zero =>
    intro offset acc t _
    rfl
  | succ n ih =>
    intro offset acc t h
    have hs : stillFetching offset (some t) = true := by
      simp [stillFetching, h]
    simp only [fetchGo, hs, if_true, apiGrowing]
    exact ih (offset + 150) (acc ++ []) (offset + 151) (by omega)

/-- Claim C6, as stated, is false: there is a remote behavior whose every
response reports a finite total page count but on which the loop never
terminates — each re-checked bound stays ahead of the advancing offset. -/
theorem C6_counterexample : ¬ FetchTerminates apiGrowing := by
  rintro ⟨fuel, hf⟩
  apply hf
  cases fuel with
  | zero => rfl
  | succ n =>
    show fetchGo apiGrowing (n + 1) 0 none [] = .fuelOut
    have hs : stillFetching 0 none = true := rfl
    simp only [fetchGo, hs, if_true, apiGrowing]
    exact apiGrowing_go n 150 ([] ++ []) 151 (by omega)

theorem fetchGo_bounded (api : Nat → Option PageResp) (B : Nat)
    (hB : ∀ o r, api o = some r → r.pageCount ≤ B) :
    ∀ n offset t acc, t ≤ B → B ≤ offset + 150 * n →
      fetchGo api (n + 1) offset (some t) acc ≠ .fuelOut := by
  intro n
  induction n with
  | zero =>
    intro offset t acc ht ho
    have hs : stillFetching offset (some t) = false := by
      simp only [stillFetching, decide_eq_false_iff_not]
      omega
    simp [fetchGo, hs]
  | succ n ih =>
    intro offset t acc ht ho
    by_cases hlt : offset < t
    · have hs : stillFetching offset (some t) = true := by
        simp [stillFetching, hlt]
      simp only [fetchGo, hs, if_true]
      cases hapi : api offset with
      | none => simp
      | some r =>
        exact ih (offset + 150) r.pageCount (acc ++ r.responses) (hB _ _ hapi) (by omega)
    · have hs : stillFetching offset (some t) = false := by
        simp [stillFetching, hlt]
      simp [fetchGo, hs]

/-- Claim C6 (amended): the loop requests offsets 0, 150, 300, … strictly in
sequence, stops as soon as the offset reaches or exceeds the most recently
reported page count, and terminates on every remote behavior whose reported
page counts are bounded by a fixed `B ≤ 2 ^ 53` — the range in which the
model's exact offset arithmetic coincides with the source's double
arithmetic, every offset visited staying an exactly represented even integer
below `2 ^ 53 + 150` — in particular any behavior constantly reporting a
page count up to `2 ^ 53`.  Outside this amendment the loop can run forever:
with finite but unboundedly growing reports (the counterexample above), or,
in the real program only, with constant reports beyond about `2 ^ 61`, where
the double increment stalls. -/
theorem C6_termination (api : Nat → Option PageResp) (B : Nat)
    (hB : ∀ o r, api o = some r → r.pageCount ≤ B) (hB53 : B ≤ 2 ^ 53) :
    FetchTerminates api := by
  refine ⟨B + 2, ?_⟩
  show fetchGo api (B + 2) 0 none [] ≠ .fuelOut
  have hs : stillFetching 0 none = true := rfl
  simp only [fetchGo, hs, if_true]
  cases hapi : api 0 with
  | none => simp
  | some r =>
    exact fetchGo_bounded api B hB B 150 r.pageCount ([] ++ r.responses)
      (hB _ _ hapi) (by omega)

/-- A remote behavior constantly reporting a one-page dataset. -/
def apiConstPage : Nat → Option PageResp := fun _ => some ⟨[sub0], 1⟩

theorem C6_witness : FetchTerminates apiConstPage :=
  C6_termination apiConstPage 1
    (fun o r h => by
      simp only [apiConstPage] at h
      cases h
      decide)
    (by norm_num)

theorem cacheData_full {k : String} {rs : List Submission} {s : CacheState}
    (hfull : s.queue.length = maxLen) :
    cacheData k rs s =
      { cache := mset k rs (mdelete (s.queue.headD "") s.cache)
        queue := s.queue.tail ++ [k] } := by
  simp [cacheData, hfull]

theorem cacheData_not_full {k : String} {rs : List Submission} {s : CacheState}
    (hfull : s.queue.length ≠ maxLen) :
    cacheData k rs s =
      { cache := mset k rs s.cache, queue := s.queue ++ [k] } := by
  simp [cacheData, hfull]

/-- Safety invariant preserved by arbitrary `cacheData` calls: the cache map
has pairwise distinct keys, each of them occupying some queue slot, and the
queue never exceeds `maxLen`. -/
def CacheKeysInv (s : CacheState) : Prop :=
  (s.cache.map Prod.fst).Nodup
  ∧ (∀ k ∈ s.cache.map Prod.fst, k ∈ s.queue)
  ∧ s.queue.length ≤ maxLen

theorem cacheData_preserves_inv (k : String) (rs : List Submission)
    (s : CacheState) (h : CacheKeysInv s) : CacheKeysInv (cacheData k rs s) := by
  obtain ⟨hnd, hsub, hlen⟩ := h
  by_cases hfull : s.queue.length = maxLen
  · rw [cacheData_full hfull]
    obtain ⟨q0, qrest, hq⟩ : ∃ q0 qrest, s.queue = q0 :: qrest := by
      cases hqe : s.queue with
      | nil => rw [hqe] at hfull; simp [maxLen] at hfull
      | cons a l => exact ⟨a, l, rfl⟩
    have hhead : s.queue.headD "" = q0 := by rw [hq]; rfl
    have htail : s.queue.tail = qrest := by rw [hq]; rfl
    have hkeys1 : (mdelete q0 s.cache).map Prod.fst =
        (s.cache.map Prod.fst).erase q0 := keys_mdelete q0 s.cache
    have hnd1 : ((mdelete q0 s.cache).map Prod.fst).Nodup := by
      rw [hkeys1]; exact hnd.erase q0
    refine ⟨?_, ?_, ?_⟩
    · rw [hhead, keys_mset]
      by_cases hk : k ∈ (mdelete q0 s.cache).map Prod.fst
      · simpa [hk] using hnd1
      · simp only [hk, if_false]
        simp [List.nodup_append, hnd1, hk]
    · intro j hj
      rw [hhead, keys_mset] at hj
      rw [htail]
      by_cases hk : k ∈ (mdelete q0 s.cache).map Prod.fst
      · rw [if_pos hk] at hj
        rw [hkeys1] at hj
        have hjne : j ≠ q0 := by
          intro he
          exact hnd.not_mem_erase (he ▸ hj)
        have hjq : j ∈ s.queue := hsub j (List.mem_of_mem_erase hj)
        rw [hq] at hjq
        rcases List.mem_cons.mp hjq with he | hm
        · exact absurd he hjne
        · exact List.mem_append_left _ hm
      · rw [if_neg hk] at hj
        rcases List.mem_append.mp hj with hj1 | hj2
        · rw [hkeys1] at hj1
          have hjne : j ≠ q0 := by
            intro he
            exact hnd.not_mem_erase (he ▸ hj1)
          have hjq : j ∈ s.queue := hsub j (List.mem_of_mem_erase hj1)
          rw [hq] at hjq
          rcases List.mem_cons.mp hjq with he | hm
          · exact absurd he hjne
          · exact List.mem_append_left _ hm
        · exact List.mem_append_right _ hj2
    · rw [htail]
      have : qrest.length + 1 = maxLen := by
        rw [hq] at hfull
        simpa using hfull
      simp only [List.length_append, List.length_cons, List.length_nil]
      omega
  · rw [cacheData_not_full hfull]
    refine ⟨?_, ?_, ?_⟩
    · rw [keys_mset]
      by_cases hk : k ∈ s.cache.map Prod.fst
      · simpa [hk] using hnd
      · simp only [hk, if_false]
        simp [List.nodup_append, hnd, hk]
    · intro j hj
      rw [keys_mset] at hj
      by_cases hk : k ∈ s.cache.map Prod.fst
      · rw [if_pos hk] at hj
        exact List.mem_append_left _ (hsub j hj)
      · rw [if_neg hk] at hj
        rcases List.mem_append.mp hj with hj1 | hj2
        · exact List.mem_append_left _ (hsub j hj1)
        · exact List.mem_append_right _ hj2
    · simp only [List.length_append, List.length_cons, List.length_nil]
      omega

theorem inv_cache_le (s : CacheState) (h : CacheKeysInv s) :
    s.cache.length ≤ maxLen := by
  obtain ⟨hnd, hsub, hlen⟩ := h
  have h1 : s.cache.length = (s.cache.map Prod.fst).length :=
    (List.length_map _ _).symm
  rw [h1, ← List.toFinset_card_of_nodup hnd]
  have h2 : (s.cache.map Prod.fst).toFinset ⊆ s.queue.toFinset := by
    intro x hx
    exact List.mem_toFinset.mpr (hsub x (List.mem_toFinset.mp hx))
  exact le_trans (Finset.card_le_card h2)
    (le_trans (List.toFinset_card_le _) hlen)

/-- All states produced by a sequence of `cacheData` invocations from the
initial empty cache and queue. -/
def execCache (ops : List (String × List Submission)) : CacheState :=
  ops.foldl (fun s op => cacheData op.1 op.2 s) ⟨[], []⟩

theorem execCache_inv_aux (ops : List (String × List Submission)) :
    ∀ s, CacheKeysInv s →
      CacheKeysInv (ops.foldl (fun s op => cacheData op.1 op.2 s) s) := by
  induction ops with
  | nil => exact fun s h => h
  | cons op rest ih =>
    intro s h
    exact ih _ (cacheData_preserves_inv op.1 op.2 s h)

/-- Claim C10: after any sequence of `cacheData` insertions — including ones
whose key is already cached, in which case the key takes an additional queue
slot and eviction of its oldest slot later deletes the cached entry outright —
every key present in the cache map also occurs in the insertion-order queue,
the queue holds at most 10 keys, and hence the cache holds at most 10
entries. -/
theorem C10_cache_queue_invariant (ops : List (String × List Submission)) :
    (∀ k ∈ (execCache ops).cache.map Prod.fst, k ∈ (execCache ops).queue)
  ∧ (execCache ops).queue.length ≤ maxLen
  ∧ (execCache ops).cache.length ≤ maxLen := by
  have hinv : CacheKeysInv (execCache ops) := by
    apply execCache_inv_aux
    exact ⟨List.nodup_nil, by simp, by simp [maxLen]⟩
  exact ⟨hinv.2.1, hinv.2.2, inv_cache_le _ hinv⟩

/-- One request's effect on the shared cache pair, as the handler performs
it: a cache hit (or a failed fetch) leaves it unchanged; a successful fetch
after a miss calls `cacheData` with the missing key. -/
inductive CacheStep : CacheState → CacheState → Prop where
  | hit (s : CacheState) : CacheStep s s
  | miss (s : CacheState) (k : String) (rs : List Submission) :
      mget k s.cache = none → CacheStep s (cacheData k rs s)

/-- Cache states reachable from process start through handler requests. -/
def Reach (s : CacheState) : Prop :=
  Relation.ReflTransGen CacheStep ⟨[], []⟩ s

/-- In handler-reachable states the queue lists exactly the cached keys in
insertion order, without duplicates, and within capacity. -/
def ReachInv (s : CacheState) : Prop :=
  s.queue = s.cache.map Prod.fst ∧ s.queue.Nodup ∧ s.queue.length ≤ maxLen

theorem reach_inv_step (s : CacheState) (k : String) (rs : List Submission)
    (hm : mget k s.cache = none) (h : ReachInv s) :
    ReachInv (cacheData k rs s) := by
  obtain ⟨hqk, hnd, hlen⟩ := h
  have hkn : k ∉ s.cache.map Prod.fst := (mget_eq_none_iff k s.cache).mp hm
  by_cases hfull : s.queue.length = maxLen
  · rw [cacheData_full hfull]
    obtain ⟨p, crest, hc⟩ : ∃ p crest, s.cache = p :: crest := by
      cases hce : s.cache with
      | nil =>
        rw [hce] at hqk
        rw [hqk] at hfull
        simp [maxLen] at hfull
      | cons a l => exact ⟨a, l, rfl⟩
    obtain ⟨k0, v0⟩ := p
    have hq : s.queue = k0 :: crest.map Prod.fst := by rw [hqk, hc]; rfl
    have hhead : s.queue.headD "" = k0 := by rw [hq]; rfl
    have htail : s.queue.tail = crest.map Prod.fst := by rw [hq]; rfl
    have hdel : mdelete k0 s.cache = crest := by rw [hc]; simp [mdelete]
    have hkcrest : k ∉ crest.map Prod.fst := by
      rw [hc] at hkn
      simp only [List.map_cons, List.mem_cons, not_or] at hkn
      exact hkn.2
    have hmset : mset k rs (mdelete (s.queue.headD "") s.cache) =
        crest ++ [(k, rs)] := by
      rw [hhead, hdel, mset_eq_append hkcrest]
    have hnd' : (crest.map Prod.fst).Nodup := (List.nodup_cons.mp (hq ▸ hnd)).2
    have hlc : (crest.map Prod.fst).length + 1 = maxLen := by
      rw [hq] at hfull
      simpa using hfull
    refine ⟨?_, ?_, ?_⟩
    · show s.queue.tail ++ [k] = (mset k rs (mdelete (s.queue.headD "") s.cache)).map Prod.fst
      rw [hmset, htail, List.map_append]
      rfl
    · show (s.queue.tail ++ [k]).Nodup
      rw [htail]
      simp [List.nodup_append, hnd', hkcrest]
    · show (s.queue.tail ++ [k]).length ≤ maxLen
      rw [htail]
      simp only [List.length_append, List.length_cons, List.length_nil]
      omega
  · rw [cacheData_not_full hfull]
    refine ⟨?_, ?_, ?_⟩
    · show s.queue ++ [k] = (mset k rs s.cache).map Prod.fst
      rw [mset_eq_append hkn, List.map_append, hqk]
      rfl
    · show (s.queue ++ [k]).Nodup
      have hkq : k ∉ s.queue := by rw [hqk]; exact hkn
      simp [List.nodup_append, hnd, hkq]
    · show (s.queue ++ [k]).length ≤ maxLen
      simp only [List.length_append, List.length_cons, List.length_nil]
      omega

theorem reach_inv (s : CacheState) (hs : Reach s) : ReachInv s := by
  induction hs with
  | refl => exact ⟨rfl, List.nodup_nil, by simp [maxLen]⟩
  | tail hab hbc ih =>
    cases hbc with
    | hit => exact ih
    | miss k rs hm => exact reach_inv_step _ k rs hm ih

/-- Claim C4: at every handler-reachable state the cache holds at most 10
entries; a cache hit answers from the stored dataset leaving the state (map
and insertion order) exactly as it was — no refresh, no eviction; and an
insertion finding the queue at capacity evicts exactly one entry, the one
whose key heads the insertion-order queue (the earliest-inserted
currently-held entry — it was present before and is gone after), stores the
new entry, and leaves every other entry untouched. -/
theorem C4_fifo_eviction (s : CacheState) (hs : Reach s) :
    s.cache.length ≤ maxLen
  ∧ s.queue.length ≤ maxLen
  ∧ (∀ api fuel q rs, mget (requestKey q) s.cache = some rs →
      handler api fuel q s = some (pageFor q rs, s))
  ∧ (∀ k rs, mget k s.cache = none → s.queue.length = maxLen →
        (cacheData k rs s).cache.length = maxLen
      ∧ (cacheData k rs s).queue = s.queue.tail ++ [k]
      ∧ mget (s.queue.headD "") s.cache ≠ none
      ∧ mget (s.queue.headD "") (cacheData k rs s).cache = none
      ∧ mget k (cacheData k rs s).cache = some rs
      ∧ (∀ k', k' ≠ s.queue.headD "" → k' ≠ k →
          mget k' (cacheData k rs s).cache = mget k' s.cache)) := by
  obtain ⟨hqk, hnd, hlen⟩ := reach_inv s hs
  have hclen : s.cache.length = s.queue.length := by
    rw [hqk, List.length_map]
  refine ⟨by omega, hlen, ?_, ?_⟩
  · intro api fuel q rs hhit
    simp only [handler, hhit]
  · intro k rs hm hfull
    have hkn : k ∉ s.cache.map Prod.fst := (mget_eq_none_iff k s.cache).mp hm
    obtain ⟨p, crest, hc⟩ : ∃ p crest, s.cache = p :: crest := by
      cases hce : s.cache with
      | nil =>
        rw [hce] at hqk
        rw [hqk] at hfull
        simp [maxLen] at hfull
      | cons a l => exact ⟨a, l, rfl⟩
    obtain ⟨k0, v0⟩ := p
    have hq : s.queue = k0 :: crest.map Prod.fst := by rw [hqk, hc]; rfl
    have hhead : s.queue.headD "" = k0 := by rw [hq]; rfl
    have hdel : mdelete k0 s.cache = crest := by rw [hc]; simp [mdelete]
    have hkcrest : k ∉ crest.map Prod.fst := by
      rw [hc] at hkn
      simp only [List.map_cons, List.mem_cons, not_or] at hkn
      exact hkn.2
    have hcknd : (s.cache.map Prod.fst).Nodup := hqk ▸ hnd
    have hk0mem : k0 ∈ s.cache.map Prod.fst := by rw [hc]; simp
    have hk0k : k0 ≠ k := fun he => hkn (he ▸ hk0mem)
    have hcd : cacheData k rs s =
        { cache := mset k rs (mdelete (s.queue.headD "") s.cache)
          queue := s.queue.tail ++ [k] } := cacheData_full hfull
    refine ⟨?_, by rw [hcd], ?_, ?_, ?_, ?_⟩
    · rw [hcd]
      show (mset k rs (mdelete (s.queue.headD "") s.cache)).length = maxLen
      rw [hhead, hdel, mset_eq_append hkcrest, List.length_append]
      have : s.cache.length = crest.length + 1 := by rw [hc]; rfl
      simp only [List.length_cons, List.length_nil]
      omega
    · rw [hhead, hc]
      simp [mget]
    · rw [hcd, hhead]
      show mget k0 (mset k rs (mdelete k0 s.cache)) = none
      rw [mget_mset_ne hk0k, mget_mdelete_self hcknd]
    · rw [hcd]
      exact mget_mset_self k rs _
    · intro k' h1 h2
      rw [hcd]
      show mget k' (mset k rs (mdelete (s.queue.headD "") s.cache)) = mget k' s.cache
      rw [mget_mset_ne h2, hhead, mget_mdelete_ne (hhead ▸ h1)]

theorem reach_insert {s : CacheState} (k : String) (rs : List Submission)
    (h : Reach s) (hm : mget k s.cache = none) : Reach (cacheData k rs s) :=
  Relation.ReflTransGen.tail h (CacheStep.miss s k rs hm)

/-- Ten distinct insertions: a reachable state with the cache at capacity. -/
def s10 : CacheState :=
  execCache [("k0", []), ("k1", []), ("k2", []), ("k3", []), ("k4", []),
    ("k5", []), ("k6", []), ("k7", []), ("k8", []), ("k9", [])]

theorem reach_s10 : Reach s10 := by
  have h0 : Reach (execCache [("k0", [])]) :=
    reach_insert "k0" [] Relation.ReflTransGen.refl (by decide)
  have h1 : Reach (execCache [("k0", []), ("k1", [])]) :=
    reach_insert "k1" [] h0 (by decide)
  have h2 : Reach (execCache [("k0", []), ("k1", []), ("k2", [])]) :=
    reach_insert "k2" [] h1 (by decide)
  have h3 : Reach (execCache [("k0", []), ("k1", []), ("k2", []), ("k3", [])]) :=
    reach_insert "k3" [] h2 (by decide)
  have h4 : Reach (execCache [("k0", []), ("k1", []), ("k2", []), ("k3", []),
      ("k4", [])]) :=
    reach_insert "k4" [] h3 (by decide)
  have h5 : Reach (execCache [("k0", []), ("k1", []), ("k2", []), ("k3", []),
      ("k4", []), ("k5", [])]) :=
    reach_insert "k5" [] h4 (by decide)
  have h6 : Reach (execCache [("k0", []), ("k1", []), ("k2", []), ("k3", []),
      ("k4", []), ("k5", []), ("k6", [])]) :=
    reach_insert "k6" [] h5 (by decide)
  have h7 : Reach (execCache [("k0", []), ("k1", []), ("k2", []), ("k3", []),
      ("k4", []), ("k5", []), ("k6", []), ("k7", [])]) :=
    reach_insert "k7" [] h6 (by decide)
  have h8 : Reach (execCache [("k0", []), ("k1", []), ("k2", []), ("k3", []),
      ("k4", []), ("k5", []), ("k6", []), ("k7", []), ("k8", [])]) :=
    reach_insert "k8" [] h7 (by decide)
  exact reach_insert "k9" [] h8 (by decide)

theorem C4_witness :
    (cacheData "fresh" [sub0] s10).cache.length = maxLen
  ∧ (cacheData "fresh" [sub0] s10).queue = s10.queue.tail ++ ["fresh"]
  ∧ mget (s10.queue.headD "") s10.cache ≠ none
  ∧ mget (s10.queue.headD "") (cacheData "fresh" [sub0] s10).cache = none
  ∧ mget "fresh" (cacheData "fresh" [sub0] s10).cache = some [sub0]
  ∧ (∀ k', k' ≠ s10.queue.headD "" → k' ≠ "fresh" →
      mget k' (cacheData "fresh" [sub0] s10).cache = mget k' s10.cache) :=
  (C4_fifo_eviction s10 reach_s10).2.2.2 "fresh" [sub0] (by decide) (by decide)

end Fillout
